import Mathlib

/-!
Verification of the balerion-data collection scripts.

The development shallowly embeds the data-handling logic of
`src/scripts/mt5_utils.py`, `src/scripts/update_weekly_data.py`,
`src/scripts/check_data.py` and `src/scripts/config.py`.

A pandas DataFrame of OHLCV bars is modelled as a `List Bar` (row order is
the DataFrame's row order); the raw structured arrays returned by the MT5
vendor API are modelled as `List RawRate`.  The pandas primitives used by
the scripts (`drop_duplicates(subset=["timestamp"], keep="last" / "first")`,
`sort_values("timestamp")`, `pd.concat`) are embedded as key-based list
operations.  Timestamps are Unix seconds as `Int`; prices and volumes are
carried as `Int` payload fields (no claim depends on their arithmetic).
-/

namespace Balerion

/-! ### Pandas primitives (generic over a key function) -/

section DataFrameOps

variable {α : Type} (key : α → Int)

/-- `df.drop_duplicates(subset=[key], keep="last")`: a row is kept exactly
when no later row has the same key; the relative order of kept rows is
preserved (pandas is stable here). -/
def drop_duplicates_last : List α → List α
  | [] => []
  | b :: rest =>
    if rest.any (fun x => key x == key b) then drop_duplicates_last rest
    else b :: drop_duplicates_last rest

/-- `df.drop_duplicates(subset=[key], keep="first")`: a row is kept exactly
when its key was not seen earlier; `seen` accumulates the keys of earlier
rows (it is `[]` at the top-level call). -/
def drop_duplicates_first : List Int → List α → List α
  | _, [] => []
  | seen, b :: rest =>
    if seen.contains (key b) then drop_duplicates_first seen rest
    else b :: drop_duplicates_first (key b :: seen) rest

/-- Ordered insertion used by `sort_values`. -/
def insert_sorted (b : α) : List α → List α
  | [] => [b]
  | c :: rest => if key b ≤ key c then b :: c :: rest else c :: insert_sorted b rest

/-- `df.sort_values(key)`: sort ascending by key.  (pandas' quicksort is not
stable, but every use in the scripts sorts a frame whose keys are unique —
either just deduplicated or gap-scanned by key differences only — so any
sort by key produces the same frame; insertion sort is a faithful model.) -/
def sort_values : List α → List α
  | [] => []
  | b :: rest => insert_sorted key b (sort_values rest)

end DataFrameOps

/-! ### Configuration (`src/scripts/config.py`) -/

/-- `config.MAX_BARS_PER_REQUEST = 99999`. -/
def MAX_BARS_PER_REQUEST : Nat := 99999

/-- `config.MAX_HISTORICAL_ATTEMPTS = 10`: number of chunks to fetch going
backwards. -/
def MAX_HISTORICAL_ATTEMPTS : Nat := 10

/-- `config.REMOVE_DUPLICATES = True`. -/
def REMOVE_DUPLICATES : Bool := true

/-! ### Data model -/

/-- One element of the structured array returned by
`mt5.copy_rates_from_pos` / `mt5.copy_rates_from`: fields
`time, open, high, low, close, tick_volume, spread, real_volume`
(`open` is a Lean keyword, hence `open_`). -/
structure RawRate where
  time : Int
  open_ : Int
  high : Int
  low : Int
  close : Int
  tick_volume : Int
  spread : Int
  real_volume : Int
deriving DecidableEq, Repr

/-- One row of the persisted dataset, in the canonical output schema
`timestamp, open, high, low, close, volume` plus the optional columns
`spread, real_volume` (both listed in `config.OPTIONAL_COLUMNS`, and both
present in every MT5 rate, so both are always kept by the column
selection). -/
structure Bar where
  timestamp : Int
  open_ : Int
  high : Int
  low : Int
  close : Int
  volume : Int
  spread : Int
  real_volume : Int
deriving DecidableEq, Repr

/-- The column transformation applied to raw rates before persisting:
`time` becomes `timestamp` (`pd.to_datetime` of Unix seconds, a bijection
modelled as the identity on the instant), `tick_volume` is renamed to
`volume`, and the columns are reduced to the canonical output schema. -/
def toBar (r : RawRate) : Bar :=
  { timestamp := r.time
    open_ := r.open_
    high := r.high
    low := r.low
    close := r.close
    volume := r.tick_volume
    spread := r.spread
    real_volume := r.real_volume }

/-! ### `mt5_utils.append_new_data` (lines 256-284) -/

/-- `mt5_utils.append_new_data`: concatenate existing and new frames,
`drop_duplicates(subset=["timestamp"], keep="last")`, then
`sort_values("timestamp")`. -/
def append_new_data (existing_df new_df : List Bar) : List Bar :=
  sort_values Bar.timestamp
    (drop_duplicates_last Bar.timestamp (existing_df ++ new_df))

/-! ### `mt5_utils.collect_maximum_data` (lines 71-207) -/

/-- `df["time"].min()` over a chunk (only ever used on nonempty chunks;
`0` for the empty chunk is a don't-care). -/
def minTime : List RawRate → Int
  | [] => 0
  | r :: rest => rest.foldl (fun m x => min m x.time) r.time

/-- The backward-paging loop of `collect_maximum_data` (lines 123-152).

The vendor API (`mt5.copy_rates_from`) is the external collaborator; it is
abstracted as `api : Nat → Int → List RawRate`, taking the index of the
call (0 is the initial `copy_rates_from_pos` call, so the loop's calls
start at index 1) and the anchor instant `earliest - 60` seconds (the
source's `earliest_datetime - timedelta(minutes=1)`); an empty list models
both `None` and a zero-length result.

Arguments after `api` are: remaining attempts (the `for attempt in
range(max_attempts)` budget), the next call index, `all_rates`, and
`earliest_time`.  Returns the final `all_rates` together with the number
of api calls the loop performed (instrumentation for counting vendor
calls; the source only logs them). -/
def backfillLoop (api : Nat → Int → List RawRate) :
    Nat → Nat → List RawRate → Int → List RawRate × Nat
  | 0, _, acc, _ => (acc, 0)
  | fuel + 1, i, acc, earliest =>
    let chunk := api i (earliest - 60)
    if chunk = [] then (acc, 1)
    else
      let newEarliest := minTime chunk
      if earliest ≤ newEarliest then (acc, 1)
      else
        let newData := chunk.filter (fun r => decide (r.time < earliest))
        let r := backfillLoop api fuel (i + 1) (newData ++ acc) newEarliest
        (r.1, r.2 + 1)

/-- Final accumulation step of `collect_maximum_data` (lines 156-198):
convert the accumulated rates to the output frame (rename `time` to
`timestamp` and `tick_volume` to `volume`, reduce to the canonical
columns), drop duplicate timestamps keeping the first occurrence
(`config.REMOVE_DUPLICATES` is true), and sort ascending by timestamp.
(The source renames/reduces columns partly after the dedup; the dedup and
sort key on the timestamp only, so the order of those steps commutes.) -/
def finalizeRates (all_rates : List RawRate) : List Bar :=
  let df := all_rates.map toBar
  let df := if REMOVE_DUPLICATES then drop_duplicates_first Bar.timestamp [] df else df
  sort_values Bar.timestamp df

/-- `mt5_utils.collect_maximum_data`, instrumented with the total number of
vendor bar-retrieval calls performed.  `initialRates` is the result of the
initial `mt5.copy_rates_from_pos(symbol, timeframe, 0, MAX_BARS_PER_REQUEST)`
call (call index 0); if it is empty the function fails (`None`), otherwise
the backward-paging loop runs with budget `MAX_HISTORICAL_ATTEMPTS` and the
accumulation is finalized. -/
def collectRun (initialRates : List RawRate) (api : Nat → Int → List RawRate) :
    Option (List Bar) × Nat :=
  if initialRates = [] then (none, 1)
  else
    let r := backfillLoop api MAX_HISTORICAL_ATTEMPTS 1 initialRates (minTime initialRates)
    (some (finalizeRates r.1), r.2 + 1)

/-- `mt5_utils.collect_maximum_data`: the returned DataFrame (or `None`). -/
def collect_maximum_data (initialRates : List RawRate)
    (api : Nat → Int → List RawRate) : Option (List Bar) :=
  (collectRun initialRates api).1

/-- A simulated vendor serving a fixed list of chunks: call `i` returns the
`i`-th chunk and any call past the end returns no data (the anchor instant
is ignored, as in the spec's simulated-vendor scenario). -/
def mkApi (chunks : List (List RawRate)) : Nat → Int → List RawRate :=
  fun i _ => chunks.getD i []

/-- "Progressively older, non-overlapping": every bar of the later chunk
`d` is strictly older than every bar of the earlier chunk `c`. -/
def chunkOlder (c d : List RawRate) : Prop :=
  ∀ r ∈ d, ∀ s ∈ c, r.time < s.time

instance chunkOlderDecidable : DecidableRel chunkOlder :=
  fun c d => inferInstanceAs (Decidable (∀ r ∈ d, ∀ s ∈ c, r.time < s.time))

/-! ### `update_weekly_data.update_symbol` (lines 108-175) -/

/-- The two paths a symbol's persisted artifact can live at: the primary
parquet file and the `.parquet.backup` file, each either absent (`none`)
or holding a frame. -/
structure FS where
  primary : Option (List Bar)
  backup : Option (List Bar)
deriving DecidableEq, Repr

/-- The persistence step of `update_symbol` (lines 162-175): if the primary
file exists it is renamed to the backup suffix; then the merged frame is
written to the primary path; the backup is unlinked only after the write
returned.  `writeOk` selects the execution in which `save_dataframe`
succeeds or raises; when it raises, execution aborts there (the exception
propagates to the per-symbol handler), so the unlink never runs and
nothing valid sits at the primary path.  Returns the resulting filesystem
and whether the step completed. -/
def persistStep (fs : FS) (merged : List Bar) (writeOk : Bool) : FS × Bool :=
  let fs1 : FS := if fs.primary.isSome then { primary := none, backup := fs.primary } else fs
  if writeOk then
    let fs2 : FS := { fs1 with primary := some merged }
    let fs3 : FS := if fs2.backup.isSome then { fs2 with backup := none } else fs2
    (fs3, true)
  else
    (fs1, false)

/-- `existing_df['timestamp'].max()` (only ever used on nonempty frames). -/
def maxTimestamp : List Bar → Int
  | [] => 0
  | b :: rest => rest.foldl (fun m x => max m x.timestamp) b.timestamp

/-- Observable outcome of `update_symbol`: the reported success flag
(`False` also models the write exception reaching the per-symbol handler),
whether a vendor fetch was performed, and the resulting filesystem. -/
structure UpdateOutcome where
  success : Bool
  fetched : Bool
  fs : FS
deriving DecidableEq, Repr

/-- `update_weekly_data.update_symbol`.  `fs.primary` holds the existing
dataset (`load_existing_data`); `now` is `datetime.now()` in Unix seconds;
`fetch` is the frame produced by `collect_recent_data` (`none` models a
failed fetch).  The freshness guard compares
`(now - latest).total_seconds()/3600 < 12`, i.e. `now - latest < 43200`
seconds.  The merge result is checked for net new rows
(`len(merged) - len(existing) <= 0` is an accepted no-op) before the
backup-write-unlink persistence step runs. -/
def update_symbol (fs : FS) (now : Int) (force : Bool)
    (fetch : Option (List Bar)) (writeOk : Bool) : UpdateOutcome :=
  match fs.primary with
  | none => ⟨false, false, fs⟩
  | some existing_df =>
    if force = false ∧ now - maxTimestamp existing_df < 43200 then
      ⟨true, false, fs⟩
    else
      match fetch with
      | none => ⟨false, true, fs⟩
      | some new_df =>
        if new_df = [] then ⟨false, true, fs⟩
        else
          let merged_df := append_new_data existing_df new_df
          if merged_df.length ≤ existing_df.length then ⟨true, true, fs⟩
          else
            let r := persistStep fs merged_df writeOk
            ⟨r.2, true, r.1⟩

/-! ### `check_data.check_file` (lines 15-64) -/

/-- `df['timestamp'].duplicated().sum()`: the number of rows whose
timestamp already occurred in an earlier row. -/
def duplicatesCount (df : List Bar) : Nat :=
  df.length - ((df.map Bar.timestamp).dedup).length

/-- Count of gaps above two hours between consecutive timestamps of the
frame sorted by timestamp (`df_sorted['timestamp'].diff() >
pd.Timedelta(hours=2)`; the first row's diff is NaT and never counts). -/
def largeGapsCount (df : List Bar) : Nat :=
  let s := sort_values Bar.timestamp df
  (s.zip s.tail).countP (fun p => decide (7200 < p.2.timestamp - p.1.timestamp))

/-- Result of `check_file`: the returned pass flag plus the quality
warnings it prints (duplicate-timestamp count and large-gap count). -/
structure CheckReport where
  passed : Bool
  duplicates : Nat
  largeGaps : Nat
deriving DecidableEq, Repr

/-- `check_data.check_file`.  The file is `none` when missing,
`some none` when `pd.read_parquet` (or the stats on the result) raises,
and `some (some df)` when it reads cleanly.  A missing file returns
`False`; a raising read returns `False` from the `except` handler; a clean
read prints the statistics and warnings and returns `True` — no warning
affects the return value. -/
def check_file (file : Option (Option (List Bar))) : CheckReport :=
  match file with
  | none => ⟨false, 0, 0⟩
  | some none => ⟨false, 0, 0⟩
  | some (some df) => ⟨true, duplicatesCount df, largeGapsCount df⟩

/-! ### Concrete rows for witnesses and counterexamples -/

/-- A bar carrying `v` in every price/volume field. -/
def mkBar (t v : Int) : Bar := ⟨t, v, v, v, v, v, v, v⟩

/-- A raw rate at instant `t` with zero payload. -/
def mkRate (t : Int) : RawRate := ⟨t, 0, 0, 0, 0, 0, 0, 0⟩

/-- Eleven nonempty one-bar chunks at strictly decreasing instants,
probing the backward-paging attempt budget. -/
def cexChunks : List (List RawRate) :=
  [[mkRate 1000], [mkRate 999], [mkRate 998], [mkRate 997], [mkRate 996],
   [mkRate 995], [mkRate 994], [mkRate 993], [mkRate 992], [mkRate 991],
   [mkRate 990]]

/-! ### Lemmas about the pandas primitives -/

section DataFrameLemmas

variable {α : Type} (key : α → Int)

theorem contains_iff_mem {l : List Int} {a : Int} : l.contains a = true ↔ a ∈ l :=
  List.elem_iff

theorem insert_sorted_perm (b : α) (l : List α) :
    (insert_sorted key b l).Perm (b :: l) := by
  induction l with
  | nil => simp [insert_sorted]
  | cons c rest ih =>
    by_cases h : key b ≤ key c
    · simp [insert_sorted, h]
    · simpa only [insert_sorted, if_neg h] using (ih.cons c).trans (List.Perm.swap b c rest)

theorem sort_values_perm (l : List α) : (sort_values key l).Perm l := by
  induction l with
  | nil => simp [sort_values]
  | cons b rest ih =>
    exact (insert_sorted_perm key b (sort_values key rest)).trans (ih.cons b)

theorem insert_sorted_pairwise (b : α) {l : List α}
    (h : l.Pairwise (fun x y => key x ≤ key y)) :
    (insert_sorted key b l).Pairwise (fun x y => key x ≤ key y) := by
  induction l with
  | nil => simp [insert_sorted]
  | cons c rest ih =>
    rw [List.pairwise_cons] at h
    by_cases hbc : key b ≤ key c
    · rw [insert_sorted, if_pos hbc]
      refine List.Pairwise.cons ?_ (List.Pairwise.cons h.1 h.2)
      intro x hx
      rcases List.mem_cons.mp hx with rfl | hx
      · exact hbc
      · exact le_trans hbc (h.1 x hx)
    · rw [insert_sorted, if_neg hbc]
      refine List.Pairwise.cons ?_ (ih h.2)
      intro x hx
      rcases List.mem_cons.mp ((insert_sorted_perm key b rest).mem_iff.mp hx) with rfl | hx
      · exact le_of_lt (lt_of_not_le hbc)
      · exact h.1 x hx

theorem sort_values_pairwise (l : List α) :
    (sort_values key l).Pairwise (fun x y => key x ≤ key y) := by
  induction l with
  | nil => simp [sort_values]
  | cons b rest ih => exact insert_sorted_pairwise key b ih

theorem sort_values_eq_self {l : List α}
    (h : l.Pairwise (fun x y => key x ≤ key y)) : sort_values key l = l := by
  induction l with
  | nil => rfl
  | cons b rest ih =>
    rw [List.pairwise_cons] at h
    rw [sort_values, ih h.2]
    cases rest with
    | nil => rfl
    | cons c t => rw [insert_sorted, if_pos (h.1 c (List.mem_cons_self c t))]

theorem pairwise_lt_of_le_nodup {l : List α}
    (h1 : l.Pairwise (fun x y => key x ≤ key y)) (h2 : (l.map key).Nodup) :
    l.Pairwise (fun x y => key x < key y) := by
  have h3 : l.Pairwise (fun x y => key x ≠ key y) := List.pairwise_map.mp h2
  exact (h1.and h3).imp (fun h => lt_of_le_of_ne h.1 h.2)

theorem mem_map_key_drop_duplicates_last (l : List α) (T : Int) :
    T ∈ (drop_duplicates_last key l).map key ↔ T ∈ l.map key := by
  induction l with
  | nil => simp [drop_duplicates_last]
  | cons b rest ih =>
    by_cases h : rest.any (fun x => key x == key b) = true
    · rw [drop_duplicates_last, if_pos h, ih]
      simp only [List.map_cons, List.mem_cons]
      constructor
      · exact Or.inr
      · rintro (rfl | hm)
        · rcases List.any_eq_true.mp h with ⟨x, hx, hxb⟩
          exact List.mem_map.mpr ⟨x, hx, beq_iff_eq.mp hxb⟩
        · exact hm
    · rw [drop_duplicates_last, if_neg h]
      simp only [List.map_cons, List.mem_cons, ih]

theorem nodup_map_key_drop_duplicates_last (l : List α) :
    ((drop_duplicates_last key l).map key).Nodup := by
  induction l with
  | nil => simp [drop_duplicates_last]
  | cons b rest ih =>
    by_cases h : rest.any (fun x => key x == key b) = true
    · rw [drop_duplicates_last, if_pos h]; exact ih
    · rw [drop_duplicates_last, if_neg h, List.map_cons, List.nodup_cons]
      refine ⟨fun hm => h ?_, ih⟩
      rcases List.mem_map.mp ((mem_map_key_drop_duplicates_last key rest (key b)).mp hm)
        with ⟨x, hx, hxb⟩
      exact List.any_eq_true.mpr ⟨x, hx, beq_iff_eq.mpr hxb⟩

theorem drop_duplicates_last_eq_self {l : List α} (h : (l.map key).Nodup) :
    drop_duplicates_last key l = l := by
  induction l with
  | nil => rfl
  | cons b rest ih =>
    rw [List.map_cons, List.nodup_cons] at h
    rw [drop_duplicates_last, if_neg ?_, ih h.2]
    intro hany
    rcases List.any_eq_true.mp hany with ⟨x, hx, hxb⟩
    exact h.1 (List.mem_map.mpr ⟨x, hx, beq_iff_eq.mp hxb⟩)

theorem filter_drop_duplicates_last (l : List α) (T : Int) :
    (drop_duplicates_last key l).filter (fun x => key x == T)
      = ((l.filter (fun x => key x == T)).getLast?).toList := by
  induction l with
  | nil => simp [drop_duplicates_last]
  | cons b rest ih =>
    by_cases h : rest.any (fun x => key x == key b) = true
    · rw [drop_duplicates_last, if_pos h, ih, List.filter_cons]
      by_cases hbT : key b = T
      · rw [if_pos (by simpa using hbT)]
        rcases List.any_eq_true.mp h with ⟨x, hx, hxb⟩
        have hxmem : x ∈ rest.filter (fun x => key x == T) :=
          List.mem_filter.mpr ⟨hx, by simp [beq_iff_eq.mp hxb, hbT]⟩
        rcases List.exists_cons_of_ne_nil (List.ne_nil_of_mem hxmem) with ⟨c, t, hct⟩
        rw [hct, List.getLast?_cons_cons]
      · rw [if_neg (by simpa using hbT)]
    · rw [drop_duplicates_last, if_neg h, List.filter_cons, List.filter_cons]
      by_cases hbT : key b = T
      · rw [if_pos (by simpa using hbT), if_pos (by simpa using hbT)]
        have hnil : rest.filter (fun x => key x == T) = [] := by
          rw [List.filter_eq_nil_iff]
          intro x hx hxT
          exact h (List.any_eq_true.mpr
            ⟨x, hx, beq_iff_eq.mpr ((beq_iff_eq.mp hxT).trans hbT.symm)⟩)
        rw [ih, hnil]
        simp
      · rw [if_neg (by simpa using hbT), if_neg (by simpa using hbT), ih]

theorem mem_map_key_drop_duplicates_first (l : List α) (seen : List Int) (T : Int) :
    T ∈ (drop_duplicates_first key seen l).map key ↔ T ∈ l.map key ∧ T ∉ seen := by
  induction l generalizing seen with
  | nil => simp [drop_duplicates_first]
  | cons b rest ih =>
    by_cases h : seen.contains (key b) = true
    · rw [drop_duplicates_first, if_pos h, ih]
      simp only [List.map_cons, List.mem_cons]
      constructor
      · rintro ⟨hm, hn⟩; exact ⟨Or.inr hm, hn⟩
      · rintro ⟨rfl | hm, hn⟩
        · exact absurd (contains_iff_mem.mp h) hn
        · exact ⟨hm, hn⟩
    · rw [drop_duplicates_first, if_neg h]
      simp only [List.map_cons, List.mem_cons, ih, List.mem_cons]
      constructor
      · rintro (rfl | ⟨hm, hn⟩)
        · exact ⟨Or.inl rfl, fun hs => h (contains_iff_mem.mpr hs)⟩
        · exact ⟨Or.inr hm, fun hs => hn (Or.inr hs)⟩
      · rintro ⟨rfl | hm, hn⟩
        · exact Or.inl rfl
        · by_cases hTb : T = key b
          · exact Or.inl hTb
          · refine Or.inr ⟨hm, ?_⟩
            rintro (h1 | h2)
            · exact hTb h1
            · exact hn h2

theorem nodup_map_key_drop_duplicates_first (l : List α) (seen : List Int) :
    ((drop_duplicates_first key seen l).map key).Nodup := by
  induction l generalizing seen with
  | nil => simp [drop_duplicates_first]
  | cons b rest ih =>
    by_cases h : seen.contains (key b) = true
    · rw [drop_duplicates_first, if_pos h]; exact ih seen
    · rw [drop_duplicates_first, if_neg h, List.map_cons, List.nodup_cons]
      refine ⟨fun hm => ?_, ih (key b :: seen)⟩
      exact ((mem_map_key_drop_duplicates_first key rest (key b :: seen) (key b)).mp hm).2
        (List.mem_cons_self _ _)

theorem drop_duplicates_first_eq_self {l : List α} {seen : List Int}
    (h1 : (l.map key).Nodup) (h2 : ∀ a ∈ l, key a ∉ seen) :
    drop_duplicates_first key seen l = l := by
  induction l generalizing seen with
  | nil => rfl
  | cons b rest ih =>
    rw [List.map_cons, List.nodup_cons] at h1
    rw [drop_duplicates_first,
      if_neg (fun hc => h2 b (List.mem_cons_self b rest) (contains_iff_mem.mp hc)),
      ih h1.2]
    intro a ha
    rw [List.mem_cons]
    rintro (hab | hs)
    · exact h1.1 (hab ▸ List.mem_map.mpr ⟨a, ha, rfl⟩)
    · exact h2 a (List.mem_cons_of_mem b ha) hs

theorem filter_drop_duplicates_first (l : List α) (seen : List Int) (T : Int) :
    (drop_duplicates_first key seen l).filter (fun x => key x == T)
      = if seen.contains T then []
        else ((l.filter (fun x => key x == T)).head?).toList := by
  induction l generalizing seen with
  | nil => simp [drop_duplicates_first]
  | cons b rest ih =>
    by_cases h : seen.contains (key b) = true
    · rw [drop_duplicates_first, if_pos h, ih]
      by_cases hbT : key b = T
      · subst hbT
        have hm : key b ∈ seen := contains_iff_mem.mp h
        simp [hm]
      · have hbTb : (key b == T) = false := beq_eq_false_iff_ne.mpr hbT
        simp [List.filter_cons, hbTb]
    · rw [drop_duplicates_first, if_neg h]
      by_cases hbT : key b = T
      · subst hbT
        have hm : key b ∉ seen := fun m => h (contains_iff_mem.mpr m)
        simp only [List.filter_cons, ih]
        simp [hm, List.contains_cons]
      · simp only [List.filter_cons, ih]
        have hTb : ¬T = key b := fun hh => hbT hh.symm
        have hbTb : (key b == T) = false := beq_eq_false_iff_ne.mpr hbT
        simp [List.contains_cons, hTb, hbTb]

theorem filter_eq_singleton_of_nodup {l : List α} {b : α} {T : Int}
    (h1 : (l.map key).Nodup) (h2 : b ∈ l) (h3 : key b = T) :
    l.filter (fun x => key x == T) = [b] := by
  induction l with
  | nil => exact absurd h2 (List.not_mem_nil b)
  | cons c rest ih =>
    rw [List.map_cons, List.nodup_cons] at h1
    rcases List.mem_cons.mp h2 with rfl | hb
    · rw [List.filter_cons, if_pos (by simpa using h3)]
      have hnil : rest.filter (fun x => key x == T) = [] := by
        rw [List.filter_eq_nil_iff]
        intro x hx hxT
        exact h1.1 (List.mem_map.mpr ⟨x, hx, (beq_iff_eq.mp hxT).trans h3.symm⟩)
      rw [hnil]
    · rw [List.filter_cons, if_neg ?_, ih h1.2 hb]
      intro hcT
      exact h1.1 (List.mem_map.mpr ⟨b, hb, h3.trans (beq_iff_eq.mp hcT).symm⟩)

theorem eq_toList_of_perm {l : List α} {o : Option α} (h : l.Perm o.toList) :
    l = o.toList := by
  cases o with
  | none => exact h.eq_nil
  | some a => exact List.perm_singleton.mp h

end DataFrameLemmas

/-! ### Derived facts about the merge and finalize stages -/

theorem filter_append_new_data (E N : List Bar) (T : Int) :
    (append_new_data E N).filter (fun x => x.timestamp == T)
      = (((E ++ N).filter (fun x => x.timestamp == T)).getLast?).toList := by
  have hp := (sort_values_perm Bar.timestamp
    (drop_duplicates_last Bar.timestamp (E ++ N))).filter (fun x => x.timestamp == T)
  rw [filter_drop_duplicates_last] at hp
  exact eq_toList_of_perm hp

theorem nodup_timestamps_append_new_data (E N : List Bar) :
    ((append_new_data E N).map Bar.timestamp).Nodup :=
  ((sort_values_perm Bar.timestamp
      (drop_duplicates_last Bar.timestamp (E ++ N))).map Bar.timestamp).nodup_iff.mpr
    (nodup_map_key_drop_duplicates_last Bar.timestamp (E ++ N))

theorem pairwise_append_new_data (E N : List Bar) :
    (append_new_data E N).Pairwise (fun a b => a.timestamp < b.timestamp) :=
  pairwise_lt_of_le_nodup Bar.timestamp
    (sort_values_pairwise Bar.timestamp (drop_duplicates_last Bar.timestamp (E ++ N)))
    (nodup_timestamps_append_new_data E N)

theorem finalizeRates_eq (rates : List RawRate) :
    finalizeRates rates
      = sort_values Bar.timestamp
          (drop_duplicates_first Bar.timestamp [] (rates.map toBar)) := rfl

theorem filter_finalizeRates (rates : List RawRate) (T : Int) :
    (finalizeRates rates).filter (fun x => x.timestamp == T)
      = (((rates.map toBar).filter (fun x => x.timestamp == T)).head?).toList := by
  rw [finalizeRates_eq]
  have hp := (sort_values_perm Bar.timestamp
    (drop_duplicates_first Bar.timestamp [] (rates.map toBar))).filter
      (fun x => x.timestamp == T)
  rw [filter_drop_duplicates_first] at hp
  simp only [List.contains_nil, Bool.false_eq_true, if_false] at hp
  exact eq_toList_of_perm hp

theorem nodup_timestamps_finalizeRates (rates : List RawRate) :
    ((finalizeRates rates).map Bar.timestamp).Nodup := by
  rw [finalizeRates_eq]
  exact ((sort_values_perm Bar.timestamp _).map Bar.timestamp).nodup_iff.mpr
    (nodup_map_key_drop_duplicates_first Bar.timestamp (rates.map toBar) [])

theorem pairwise_finalizeRates (rates : List RawRate) :
    (finalizeRates rates).Pairwise (fun a b => a.timestamp < b.timestamp) := by
  rw [finalizeRates_eq]
  exact pairwise_lt_of_le_nodup Bar.timestamp
    (sort_values_pairwise Bar.timestamp
      (drop_duplicates_first Bar.timestamp [] (rates.map toBar)))
    (by rw [← finalizeRates_eq]; exact nodup_timestamps_finalizeRates rates)

theorem collect_maximum_data_eq_finalize {init : List RawRate}
    {api : Nat → Int → List RawRate} {df : List Bar}
    (hc : collect_maximum_data init api = some df) :
    df = finalizeRates
      (backfillLoop api MAX_HISTORICAL_ATTEMPTS 1 init (minTime init)).1 := by
  by_cases hinit : init = []
  · rw [collect_maximum_data, collectRun, if_pos hinit] at hc
    exact absurd hc (by simp)
  · rw [collect_maximum_data, collectRun, if_neg hinit] at hc
    exact (Option.some_inj.mp hc).symm

/-! ### Claims C1, C4: merge precedence and idempotence -/

/-- Claim C1: merge precedence (last-write-wins).  For an existing frame
`E` and a new frame `N` (a dataset, so its timestamps are unique) and a
timestamp `T` present in both, the merged result of `append_new_data`
contains exactly the bar of `N` at `T`; every bar of `E` at `T` is
dropped. -/
theorem merge_last_write_wins (E N : List Bar) (T : Int) (b : Bar)
    (hN : (N.map Bar.timestamp).Nodup) (hbN : b ∈ N) (hbT : b.timestamp = T)
    (_hTE : T ∈ E.map Bar.timestamp) :
    (append_new_data E N).filter (fun x => x.timestamp == T) = [b] := by
  rw [filter_append_new_data, List.filter_append,
    filter_eq_singleton_of_nodup Bar.timestamp hN hbN hbT, List.getLast?_concat]
  rfl

/-- Witness for C1: existing bar at T = 0 with payload 1, new bar at the
same T with payload 2; the merge keeps exactly the new bar. -/
theorem merge_last_write_wins_witness :
    (append_new_data [mkBar 0 1] [mkBar 0 2]).filter (fun x => x.timestamp == 0)
      = [mkBar 0 2] :=
  merge_last_write_wins [mkBar 0 1] [mkBar 0 2] 0 (mkBar 0 2)
    (by decide) (by decide) (by decide) (by decide)

/-- Claim C4: merge idempotence.  Merging a dataset `D` (a dataset
satisfies the invariant: strictly ascending, hence unique, timestamps)
with an empty new-data collection returns `D` unchanged. -/
theorem merge_empty_idempotent (D : List Bar)
    (hD : D.Pairwise (fun a b => a.timestamp < b.timestamp)) :
    append_new_data D [] = D := by
  have hnd : (D.map Bar.timestamp).Nodup :=
    List.pairwise_map.mpr (hD.imp fun h => ne_of_lt h)
  rw [append_new_data, List.append_nil, drop_duplicates_last_eq_self Bar.timestamp hnd,
    sort_values_eq_self Bar.timestamp (hD.imp fun h => le_of_lt h)]

/-- Witness for C4 at a two-row dataset. -/
theorem merge_empty_idempotent_witness :
    append_new_data [mkBar 0 1, mkBar 60 1] [] = [mkBar 0 1, mkBar 60 1] :=
  merge_empty_idempotent [mkBar 0 1, mkBar 60 1] (by decide)

/-! ### Claim C5: dataset invariant of both pipelines -/

/-- Claim C5: every frame produced by `append_new_data` (any inputs) and
every non-`None` result of `collect_maximum_data` has pairwise-unique
timestamps sorted strictly ascending. -/
theorem dataset_invariant (E N : List Bar) (init : List RawRate)
    (api : Nat → Int → List RawRate) (df : List Bar)
    (hc : collect_maximum_data init api = some df) :
    (append_new_data E N).Pairwise (fun a b => a.timestamp < b.timestamp)
      ∧ df.Pairwise (fun a b => a.timestamp < b.timestamp) := by
  refine ⟨pairwise_append_new_data E N, ?_⟩
  rw [collect_maximum_data_eq_finalize hc]
  exact pairwise_finalizeRates _

/-- Witness for C5: a one-chunk backfill run and an empty merge. -/
theorem dataset_invariant_witness :
    (append_new_data [] []).Pairwise (fun a b => a.timestamp < b.timestamp)
      ∧ [toBar (mkRate 7)].Pairwise (fun a b => a.timestamp < b.timestamp) :=
  dataset_invariant [] [] [mkRate 7] (mkApi [[mkRate 7]]) [toBar (mkRate 7)]
    (by decide)

/-! ### Claim C6: backfill dedup keeps the first occurrence -/

/-- Claim C6: in `collect_maximum_data`, the final deduplication keeps,
for every timestamp, the first occurrence among the accumulated bars
(later occurrences are dropped), the result is sorted strictly ascending
and carried through `toBar` (the canonical-output-column reduction) —
whereas the update-path merge `append_new_data` keeps the last occurrence
of each timestamp in the concatenated frame. -/
theorem backfill_dedup_first_occurrence (init : List RawRate)
    (api : Nat → Int → List RawRate) (df : List Bar) (E N : List Bar) (T : Int)
    (hc : collect_maximum_data init api = some df) :
    df.filter (fun x => x.timestamp == T)
        = ((((backfillLoop api MAX_HISTORICAL_ATTEMPTS 1 init
            (minTime init)).1.map toBar).filter
              (fun x => x.timestamp == T)).head?).toList
      ∧ df.Pairwise (fun a b => a.timestamp < b.timestamp)
      ∧ (append_new_data E N).filter (fun x => x.timestamp == T)
        = (((E ++ N).filter (fun x => x.timestamp == T)).getLast?).toList := by
  rw [collect_maximum_data_eq_finalize hc]
  exact ⟨filter_finalizeRates _ T, pairwise_finalizeRates _,
    filter_append_new_data E N T⟩

/-- Witness for C6: a one-chunk run, probing timestamp 7. -/
theorem backfill_dedup_first_occurrence_witness :
    ([toBar (mkRate 7)] : List Bar).filter (fun x => x.timestamp == 7)
        = ((((backfillLoop (mkApi [[mkRate 7]]) MAX_HISTORICAL_ATTEMPTS 1 [mkRate 7]
            (minTime [mkRate 7])).1.map toBar).filter
              (fun x => x.timestamp == 7)).head?).toList
      ∧ ([toBar (mkRate 7)] : List Bar).Pairwise
          (fun a b => a.timestamp < b.timestamp)
      ∧ (append_new_data [mkBar 1 1] [mkBar 1 2]).filter (fun x => x.timestamp == 7)
        = ((([mkBar 1 1] ++ [mkBar 1 2]).filter
            (fun x => x.timestamp == 7)).getLast?).toList :=
  backfill_dedup_first_occurrence [mkRate 7] (mkApi [[mkRate 7]])
    [toBar (mkRate 7)] [mkBar 1 1] [mkBar 1 2] 7 (by decide)

/-! ### Claim C3: backup-then-replace safety -/

/-- Claim C3: in the persistence step of the update path, with an existing
primary artifact `E`: on a successful write the merged frame sits at the
primary path and the backup has been removed (only after the write); on a
failing write the step reports failure and the backup — holding the prior
version `E` — still exists. -/
theorem backup_then_replace_safety (fs : FS) (E merged : List Bar)
    (h : fs.primary = some E) :
    persistStep fs merged true = (⟨some merged, none⟩, true)
      ∧ (persistStep fs merged false).1.backup = some E
      ∧ (persistStep fs merged false).2 = false := by
  have hs : fs.primary.isSome = true := by rw [h]; rfl
  refine ⟨?_, ?_, ?_⟩ <;> simp [persistStep, hs, h]

/-- Witness for C3 at a concrete filesystem. -/
theorem backup_then_replace_safety_witness :
    persistStep ⟨some [mkBar 0 1], none⟩ [mkBar 0 2] true
        = (⟨some [mkBar 0 2], none⟩, true)
      ∧ (persistStep ⟨some [mkBar 0 1], none⟩ [mkBar 0 2] false).1.backup
        = some [mkBar 0 1]
      ∧ (persistStep ⟨some [mkBar 0 1], none⟩ [mkBar 0 2] false).2 = false :=
  backup_then_replace_safety ⟨some [mkBar 0 1], none⟩ [mkBar 0 1] [mkBar 0 2] rfl

/-! ### Claim C7: freshness skip -/

/-- Claim C7: when the existing dataset's maximum timestamp is under 12
hours (43200 s) old, `update_symbol` without the force flag reports
success with no vendor fetch and no filesystem change; with the force
flag set the vendor fetch is performed regardless of freshness. -/
theorem update_skips_fresh (fs : FS) (E : List Bar) (now : Int)
    (fetch : Option (List Bar)) (writeOk : Bool)
    (hE : fs.primary = some E) (hfresh : now - maxTimestamp E < 43200) :
    update_symbol fs now false fetch writeOk = ⟨true, false, fs⟩
      ∧ (update_symbol fs now true fetch writeOk).fetched = true := by
  constructor
  · simp [update_symbol, hE, hfresh]
  · simp only [update_symbol, hE]
    rw [if_neg (by simp)]
    cases fetch with
    | none => rfl
    | some N =>
      dsimp only
      split_ifs <;> rfl

/-- Witness for C7: a dataset whose latest bar is 100 s old. -/
theorem update_skips_fresh_witness :
    update_symbol ⟨some [mkBar 0 3], none⟩ 100 false none false
        = ⟨true, false, ⟨some [mkBar 0 3], none⟩⟩
      ∧ (update_symbol ⟨some [mkBar 0 3], none⟩ 100 true none false).fetched = true :=
  update_skips_fresh ⟨some [mkBar 0 3], none⟩ [mkBar 0 3] 100 none false rfl
    (by decide)

/-! ### Claim C10: quality-checker pass criterion -/

/-- Claim C10: `check_file` marks a symbol as passing exactly when its
file exists and reads cleanly; duplicate timestamps, missing values and
large gaps are only reported (returned as warning counts here), never
failing conditions — the pass flag is `true` for every readable frame. -/
theorem check_file_pass_iff (file : Option (Option (List Bar))) :
    ((check_file file).passed = true ↔ ∃ df, file = some (some df))
      ∧ ∀ df : List Bar, (check_file (some (some df))).passed = true := by
  refine ⟨?_, fun df => rfl⟩
  match file with
  | none => simp [check_file]
  | some none => simp [check_file]
  | some (some df) => simp [check_file]

/-! ### Claims C8, C9: accepted no-ops in the update path -/

theorem length_append_new_data_of_subset {E N : List Bar}
    (hE : (E.map Bar.timestamp).Nodup)
    (hsub : ∀ b ∈ N, b.timestamp ∈ E.map Bar.timestamp) :
    (append_new_data E N).length = E.length := by
  have h1 : (append_new_data E N).length
      = (drop_duplicates_last Bar.timestamp (E ++ N)).length :=
    (sort_values_perm Bar.timestamp _).length_eq
  have h2 : (((drop_duplicates_last Bar.timestamp (E ++ N)).map Bar.timestamp).toFinset
        : Finset Int)
      = (E.map Bar.timestamp).toFinset := by
    ext a
    simp only [List.mem_toFinset]
    rw [mem_map_key_drop_duplicates_last]
    constructor
    · rw [List.map_append, List.mem_append]
      rintro (h | h)
      · exact h
      · rcases List.mem_map.mp h with ⟨b, hb, rfl⟩
        exact hsub b hb
    · intro h
      rw [List.map_append, List.mem_append]
      exact Or.inl h
  have h3 := List.toFinset_card_of_nodup
    (nodup_map_key_drop_duplicates_last Bar.timestamp (E ++ N))
  have h4 := List.toFinset_card_of_nodup hE
  rw [h1, ← List.length_map (drop_duplicates_last Bar.timestamp (E ++ N)) Bar.timestamp,
    ← h3, h2, h4, List.length_map]

/-- Counterexample to claim C8 as stated.  The fetched frame
`[mkBar 3000 5]` contains no bar with a timestamp beyond the existing
maximum (3000 ≤ 6000), yet the update is not a no-op: the merge adds a
row at the gap timestamp 3000, so `update_symbol` proceeds to the write
path, and in the execution where the write fails it reports failure, not
success. -/
theorem update_noop_claim_counterexample :
    (∀ b ∈ [mkBar 3000 5], b.timestamp ≤ maxTimestamp [mkBar 0 1, mkBar 6000 1])
      ∧ (update_symbol ⟨some [mkBar 0 1, mkBar 6000 1], none⟩ 1000000 false
          (some [mkBar 3000 5]) false).success = false := by
  decide

/-- Claim C8 (amended): for every update in which the fetch returns a
nonempty frame all of whose timestamps already occur in the existing
dataset — so the merge adds no rows — `update_symbol` reports success as
an accepted no-op, leaving the filesystem untouched (shown here on the
forced-fetch path, so the fetch really runs). -/
theorem update_noop_accepted (fs : FS) (E N : List Bar) (now : Int) (writeOk : Bool)
    (hE : fs.primary = some E)
    (hinv : E.Pairwise (fun a b => a.timestamp < b.timestamp))
    (hNne : N ≠ [])
    (hsub : ∀ b ∈ N, b.timestamp ∈ E.map Bar.timestamp) :
    update_symbol fs now true (some N) writeOk = ⟨true, true, fs⟩ := by
  have hnd : (E.map Bar.timestamp).Nodup :=
    List.pairwise_map.mpr (hinv.imp fun h => ne_of_lt h)
  have hlen : (append_new_data E N).length ≤ E.length :=
    le_of_eq (length_append_new_data_of_subset hnd hsub)
  simp only [update_symbol, hE]
  rw [if_neg (by simp)]
  rw [if_neg hNne, if_pos hlen]

/-- Witness for the amended C8: refetching the single existing bar. -/
theorem update_noop_accepted_witness :
    update_symbol ⟨some [mkBar 0 1], none⟩ 99999 true (some [mkBar 0 2]) false
      = ⟨true, true, ⟨some [mkBar 0 1], none⟩⟩ :=
  update_noop_accepted ⟨some [mkBar 0 1], none⟩ [mkBar 0 1] [mkBar 0 2] 99999 false
    rfl (by decide) (by decide) (by decide)

/-- Claim C9 (implicit frame effect): when every timestamp of the
nonempty fetched frame already occurs in the existing dataset, the merged
row count does not exceed the existing count, so `update_symbol` reports
success without writing anything — the filesystem is unchanged for every
force-flag and write-outcome combination, and refetched values that
differ from the stored ones are never persisted. -/
theorem update_overlap_never_persists (fs : FS) (E N : List Bar) (now : Int)
    (force writeOk : Bool)
    (hE : fs.primary = some E)
    (hinv : E.Pairwise (fun a b => a.timestamp < b.timestamp))
    (hNne : N ≠ [])
    (hsub : ∀ b ∈ N, b.timestamp ∈ E.map Bar.timestamp) :
    (update_symbol fs now force (some N) writeOk).success = true
      ∧ (update_symbol fs now force (some N) writeOk).fs = fs := by
  have hnd : (E.map Bar.timestamp).Nodup :=
    List.pairwise_map.mpr (hinv.imp fun h => ne_of_lt h)
  have hlen : (append_new_data E N).length ≤ E.length :=
    le_of_eq (length_append_new_data_of_subset hnd hsub)
  simp only [update_symbol, hE]
  by_cases hcond : force = false ∧ now - maxTimestamp E < 43200
  · rw [if_pos hcond]
    exact ⟨rfl, rfl⟩
  · rw [if_neg hcond]
    rw [if_neg hNne, if_pos hlen]
    exact ⟨rfl, rfl⟩

/-- Witness for C9: a stale two-bar dataset refetched with changed
values at the same timestamps; nothing is persisted. -/
theorem update_overlap_never_persists_witness :
    (update_symbol ⟨some [mkBar 0 1, mkBar 60 1], none⟩ 777777 false
        (some [mkBar 60 9]) false).success = true
      ∧ (update_symbol ⟨some [mkBar 0 1, mkBar 60 1], none⟩ 777777 false
          (some [mkBar 60 9]) false).fs = ⟨some [mkBar 0 1, mkBar 60 1], none⟩ :=
  update_overlap_never_persists ⟨some [mkBar 0 1, mkBar 60 1], none⟩
    [mkBar 0 1, mkBar 60 1] [mkBar 60 9] 777777 false false rfl
    (by decide) (by decide) (by decide)

/-! ### Claim C2: backfill termination and completeness -/

theorem foldl_min_le (l : List RawRate) (a : Int) :
    l.foldl (fun m x => min m x.time) a ≤ a := by
  induction l generalizing a with
  | nil => exact le_refl a
  | cons x t ih => exact le_trans (ih (min a x.time)) (min_le_left a x.time)

theorem foldl_min_le_mem (l : List RawRate) (a : Int) {r : RawRate} (h : r ∈ l) :
    l.foldl (fun m x => min m x.time) a ≤ r.time := by
  induction l generalizing a with
  | nil => cases h
  | cons x t ih =>
    rcases List.mem_cons.mp h with rfl | h
    · exact le_trans (foldl_min_le t (min a r.time)) (min_le_right a r.time)
    · exact ih (min a x.time) h

theorem foldl_min_cases (l : List RawRate) (a : Int) :
    l.foldl (fun m x => min m x.time) a = a
      ∨ ∃ r ∈ l, l.foldl (fun m x => min m x.time) a = r.time := by
  induction l generalizing a with
  | nil => exact Or.inl rfl
  | cons x t ih =>
    rcases ih (min a x.time) with he | ⟨r, hr, he⟩
    · rcases min_choice a x.time with hm | hm
      · exact Or.inl (by rw [List.foldl_cons, he, hm])
      · exact Or.inr ⟨x, List.mem_cons_self x t, by rw [List.foldl_cons, he, hm]⟩
    · exact Or.inr ⟨r, List.mem_cons_of_mem x hr, by rw [List.foldl_cons, he]⟩

theorem minTime_le {l : List RawRate} {r : RawRate} (h : r ∈ l) :
    minTime l ≤ r.time := by
  cases l with
  | nil => cases h
  | cons x t =>
    rw [minTime]
    rcases List.mem_cons.mp h with rfl | h
    · exact foldl_min_le t r.time
    · exact foldl_min_le_mem t x.time h

theorem exists_minTime {l : List RawRate} (h : l ≠ []) :
    ∃ r ∈ l, r.time = minTime l := by
  cases l with
  | nil => exact absurd rfl h
  | cons x t =>
    rw [minTime]
    rcases foldl_min_cases t x.time with he | ⟨r, hr, he⟩
    · exact ⟨x, List.mem_cons_self x t, he.symm⟩
    · exact ⟨r, List.mem_cons_of_mem x hr, he.symm⟩

theorem backfillLoop_spec (rest : List (List RawRate)) :
    ∀ (api : Nat → Int → List RawRate) (i n : Nat) (acc : List RawRate) (earliest : Int),
    (∀ j t, api (i + j) t = rest.getD j []) →
    rest.length + 1 ≤ n →
    (∀ c ∈ rest, c ≠ []) →
    rest.Pairwise chunkOlder →
    (∀ c ∈ rest, ∀ r ∈ c, r.time < earliest) →
    backfillLoop api n i acc earliest
      = (rest.reverse.flatten ++ acc, rest.length + 1) := by
  induction rest with
  | nil =>
    intro api i n acc earliest hapi hn _ _ _
    obtain ⟨m, rfl⟩ : ∃ m, n = m + 1 := ⟨n - 1, by omega⟩
    have hchunk : api i (earliest - 60) = [] := by simpa using hapi 0 (earliest - 60)
    simp [backfillLoop, hchunk]
  | cons c rest2 ih =>
    intro api i n acc earliest hapi hn hne hpw hlt
    obtain ⟨m, rfl⟩ : ∃ m, n = m + 1 := ⟨n - 1, by omega⟩
    have hchunk : api i (earliest - 60) = c := by simpa using hapi 0 (earliest - 60)
    have hcne : c ≠ [] := hne c (List.mem_cons_self c rest2)
    rw [List.pairwise_cons] at hpw
    have hminlt : minTime c < earliest := by
      rcases exists_minTime hcne with ⟨r, hr, hrt⟩
      rw [← hrt]
      exact hlt c (List.mem_cons_self c rest2) r hr
    have hfilter : c.filter (fun r => decide (r.time < earliest)) = c :=
      List.filter_eq_self.mpr
        (fun r hr => by simpa using hlt c (List.mem_cons_self c rest2) r hr)
    have hrec := ih api (i + 1) m (c ++ acc) (minTime c)
      (fun j t => by
        have h := hapi (j + 1) t
        rw [show i + (j + 1) = i + 1 + j by omega] at h
        simpa [List.getD_cons_succ] using h)
      (by simp only [List.length_cons] at hn; omega)
      (fun d hd => hne d (List.mem_cons_of_mem c hd))
      hpw.2
      (fun d hd r hr => by
        rcases exists_minTime hcne with ⟨s, hs, hst⟩
        rw [← hst]
        exact hpw.1 d hd r hr s hs)
    simp only [backfillLoop, hchunk, if_neg hcne, if_neg (not_le.mpr hminlt), hfilter, hrec]
    simp [List.reverse_cons, List.flatten_append, List.append_assoc]

theorem flatten_time_nodup {chunks : List (List RawRate)}
    (hnd : ∀ c ∈ chunks, (c.map RawRate.time).Nodup)
    (hpw : chunks.Pairwise chunkOlder) :
    ((chunks.flatten).map RawRate.time).Nodup := by
  induction chunks with
  | nil => simp
  | cons c rest ih =>
    rw [List.pairwise_cons] at hpw
    rw [List.flatten_cons, List.map_append]
    refine List.Nodup.append (hnd c (List.mem_cons_self c rest))
      (ih (fun d hd => hnd d (List.mem_cons_of_mem c hd)) hpw.2) ?_
    intro a hac har
    rcases List.mem_map.mp hac with ⟨s, hs, rfl⟩
    rcases List.mem_map.mp har with ⟨r, hr, hteq⟩
    rcases List.mem_flatten.mp hr with ⟨d, hd, hrd⟩
    exact absurd hteq (ne_of_lt (hpw.1 d hd r hrd s hs))

/-- Claim C2 (amended): for every k with 1 ≤ k ≤ MAX_HISTORICAL_ATTEMPTS
(= 10), given a simulated vendor serving k nonempty, progressively older,
non-overlapping chunks (with unique in-chunk timestamps) and nothing
afterwards, the backfill terminates after exactly k + 1 vendor calls and
returns all k chunks' bars, deduplicated by timestamp and sorted strictly
ascending.  (For k > 10 the attempt budget stops the loop first: see the
counterexample.) -/
theorem backfill_terminates_complete (chunks : List (List RawRate))
    (hk1 : 1 ≤ chunks.length) (hk10 : chunks.length ≤ MAX_HISTORICAL_ATTEMPTS)
    (hne : ∀ c ∈ chunks, c ≠ [])
    (hnd : ∀ c ∈ chunks, (c.map RawRate.time).Nodup)
    (hpw : chunks.Pairwise chunkOlder) :
    ∃ df, collectRun (chunks.getD 0 []) (mkApi chunks) = (some df, chunks.length + 1)
      ∧ (∀ b : Bar, b ∈ df ↔ b ∈ (chunks.flatten).map toBar)
      ∧ df.Pairwise (fun a b => a.timestamp < b.timestamp) := by
  obtain ⟨c0, rtail, rfl⟩ : ∃ c0 rtail, chunks = c0 :: rtail := by
    cases chunks with
    | nil => simp at hk1
    | cons a b => exact ⟨a, b, rfl⟩
  have hc0ne : c0 ≠ [] := hne c0 (List.mem_cons_self c0 rtail)
  have hpwtail := (List.pairwise_cons.mp hpw).2
  have hpwhead := (List.pairwise_cons.mp hpw).1
  have hloop := backfillLoop_spec rtail (mkApi (c0 :: rtail)) 1 MAX_HISTORICAL_ATTEMPTS
    c0 (minTime c0)
    (fun j t => by
      simp only [mkApi, show 1 + j = j + 1 by omega, List.getD_cons_succ])
    (by simpa using hk10)
    (fun c hc => hne c (List.mem_cons_of_mem c0 hc))
    hpwtail
    (fun c hc r hr => by
      rcases exists_minTime hc0ne with ⟨s, hs, hst⟩
      rw [← hst]
      exact hpwhead c hc r hr s hs)
  have hperm : (rtail.reverse.flatten ++ c0).Perm ((c0 :: rtail).flatten) := by
    rw [List.flatten_cons]
    exact ((rtail.reverse_perm.flatten).append_right c0).trans List.perm_append_comm
  have hkeys : (((rtail.reverse.flatten ++ c0).map toBar).map Bar.timestamp).Nodup := by
    rw [List.map_map]
    exact ((hperm.map RawRate.time).nodup_iff.mpr (flatten_time_nodup hnd hpw))
  have hfin : finalizeRates (rtail.reverse.flatten ++ c0)
      = sort_values Bar.timestamp ((rtail.reverse.flatten ++ c0).map toBar) := by
    rw [finalizeRates_eq, drop_duplicates_first_eq_self Bar.timestamp hkeys (by simp)]
  refine ⟨finalizeRates (rtail.reverse.flatten ++ c0), ?_, ?_, ?_⟩
  · rw [show (c0 :: rtail).getD 0 [] = c0 from rfl]
    simp only [collectRun, if_neg hc0ne, hloop]
    simp [List.length_cons]
  · intro b
    rw [hfin, (sort_values_perm Bar.timestamp _).mem_iff, (hperm.map toBar).mem_iff]
  · exact pairwise_finalizeRates _

/-- Witness for the amended C2 at k = 2: three vendor calls, both bars
present, ascending. -/
theorem backfill_terminates_complete_witness :
    ∃ df, collectRun ([[mkRate 100], [mkRate 50]].getD 0 [])
          (mkApi [[mkRate 100], [mkRate 50]])
        = (some df, [[mkRate 100], [mkRate 50]].length + 1)
      ∧ (∀ b : Bar, b ∈ df ↔ b ∈ ([[mkRate 100], [mkRate 50]].flatten).map toBar)
      ∧ df.Pairwise (fun a b => a.timestamp < b.timestamp) :=
  backfill_terminates_complete [[mkRate 100], [mkRate 50]]
    (by decide) (by decide) (by decide) (by decide) (by decide)

/-- Counterexample to claim C2 as stated ("for every k"): eleven
nonempty, progressively older, non-overlapping one-bar chunks followed by
nothing.  The attempt budget MAX_HISTORICAL_ATTEMPTS = 10 exhausts the
loop after the tenth paging call, so the run performs 11 vendor calls —
not the k + 1 = 12 the claim requires — and never observes the empty
response. -/
theorem backfill_call_count_counterexample :
    cexChunks.length = 11
      ∧ (∀ c ∈ cexChunks, c ≠ [])
      ∧ (∀ c ∈ cexChunks, (c.map RawRate.time).Nodup)
      ∧ cexChunks.Pairwise chunkOlder
      ∧ (collectRun (cexChunks.getD 0 []) (mkApi cexChunks)).2 = 11
      ∧ (11 : Nat) ≠ cexChunks.length + 1 := by
  decide

end Balerion
